import Mathlib

/-!
Shallow embedding of the k-means clustering core of this repository
(`src/FinalProject/FinalProject/src/main.rs`; `src/checkin1.rs` holds the
same clustering functions).  Scalars (`f64` in the source) are modelled as
exact rationals `ℚ`; `Array1<f64>` as `List ℚ`; `Array2<f64>` as a list of
rows.  Fallible operations (indexing that panics, `unwrap`) are modelled
with `Option`/`Except`.  The square root inside `distance` is modelled
exactly: comparisons of square roots of nonnegative rationals are decided
at the level of the radicands (`Real.sqrt s < t ↔ 0 < t ∧ s < t ^ 2`), and a
real-valued `distance` ties the executable radicand to the actual Euclidean
distance.
-/

namespace KMeans

/-- A numeric vector (`Array1<f64>` in the source), with exact rational
coordinates. -/
abbrev Vec := List ℚ

/-- A data matrix (`Array2<f64>`), as its list of rows. -/
abbrev Mat := List Vec

/-- The radicand computed inside `distance` in the source: the sum of squared
coordinate differences, over the `zip` of the two vectors (Rust's `zip`, like
`List.zip`, stops at the shorter vector).  The source then applies `.sqrt()`;
see `distance` below. -/
def distSq (p1 p2 : Vec) : ℚ :=
  ((p1.zip p2).map fun x => (x.1 - x.2) ^ 2).sum

/-- The Euclidean `distance` function of the source: square root of the sum of
squared differences over the `zip` of the two vectors. -/
noncomputable def distance (p1 p2 : Vec) : ℝ :=
  Real.sqrt ((distSq p1 p2 : ℚ) : ℝ)

/-- Failure modes of `initialize_centroids`.  The source indexes `arr.row(i)`,
which panics with an index-out-of-bounds error when `i` is not a valid row;
`insufficientData` is the explicit error the specification asks for, present
here only so the specified behaviour can be stated and compared. -/
inductive InitError
  | rowIndexOutOfBounds
  | insufficientData
deriving DecidableEq

/-- `initialize_centroids(arr, k)`: pushes `arr.row(i)` for `i in 0..k`.
`arr.row(i)` panics (modelled as `Except.error .rowIndexOutOfBounds`) when
`i` is out of range; no partial vector escapes the panic. -/
def initialize_centroids (arr : Mat) (k : ℕ) : Except InitError (List Vec) :=
  (List.range k).mapM fun i =>
    match arr.get? i with
    | some row => Except.ok row
    | none => Except.error InitError.rowIndexOutOfBounds

/-- The fold performed by Rust's `Iterator::min_by` over `(index, distance)`
pairs: the accumulator is replaced only when the new element compares strictly
smaller, so the first of several equal minima is kept.  Comparison of the
distances `sqrt s` is performed on the radicands `s`, which agrees with the
source's `partial_cmp` on the square roots because `Real.sqrt` is strictly
monotone on nonnegative reals (`distance_lt_iff` below). -/
def minByRun : List (ℕ × ℚ) → Option (ℕ × ℚ) → Option (ℕ × ℚ)
  | [], acc => acc
  | x :: xs, none => minByRun xs (some x)
  | x :: xs, some a => minByRun xs (some (if x.2 < a.2 then x else a))

/-- `find_closest_centroid(point, centroids)`: enumerate the centroids, pair
each index with its distance to `point`, take `min_by` on the distance, keep
the index.  The final `unwrap` panics (modelled as `none`) when the centroid
list is empty. -/
def find_closest_centroid (point : Vec) (centroids : List Vec) : Option ℕ :=
  (minByRun ((centroids.enum).map fun ic => (ic.1, distSq point ic.2)) none).map
    Prod.fst

/-- `&a + &b` on two `Array1<f64>` of equal length (the only way it is used in
the source): coordinatewise addition. -/
def addVec (a b : Vec) : Vec := a.zipWith (fun x y => x + y) b

/-- `&a / c`: coordinatewise division by a scalar. -/
def divVec (a : Vec) (c : ℚ) : Vec := a.map (fun x => x / c)

/-- The accumulation loop of `recompute_centroids`: for each row `i`,
`cluster = labels[i]` (panics, i.e. `none`, when `i` is out of bounds of
`labels`), then `new_centroids[cluster] += point` and `counts[cluster] += 1`
(panics when `cluster` is out of bounds). -/
def kmAccum : List Vec → List ℕ → List Vec → List ℕ → Option (List Vec × List ℕ)
  | [], _, sums, counts => some (sums, counts)
  | _ :: _, [], _, _ => none
  | p :: ps, c :: cs, sums, counts =>
    if c < sums.length ∧ c < counts.length then
      kmAccum ps cs (sums.set c (addVec (sums.getD c []) p))
        (counts.set c (counts.getD c 0 + 1))
    else none

/-- `recompute_centroids(arr, labels, k)`: start from `k` zero vectors of
length `d = arr.shape()[1]` and zero counts, accumulate each row into its
labelled centroid, then divide centroid `i` by `counts[i]` when
`counts[i] > 0` (leaving the zero vector otherwise). -/
def recompute_centroids (d : ℕ) (arr : Mat) (labels : List ℕ) (k : ℕ) :
    Option (List Vec) := do
  let sc ← kmAccum arr labels (List.replicate k (List.replicate d 0))
    (List.replicate k 0)
  some ((sc.1.zip sc.2).map fun p => if 0 < p.2 then divVec p.1 (p.2 : ℚ) else p.1)

/-- Decides `Real.sqrt s < t` for a nonnegative rational radicand `s`:
`sqrt s < t` iff `0 < t` and `s < t ^ 2` (`sqrtLtQ_iff` below). -/
def sqrtLtQ (s t : ℚ) : Bool := decide (0 < t) && decide (s < t ^ 2)

/-- `has_converged(old, new, tolerance)`: `zip` the two centroid lists and
check `distance(old, new) < tolerance` for every pair.  The comparison of the
square root with the tolerance is decided on the radicand by `sqrtLtQ`. -/
def has_converged (old_centroids new_centroids : List Vec) (tolerance : ℚ) :
    Bool :=
  (old_centroids.zip new_centroids).all fun p => sqrtLtQ (distSq p.1 p.2) tolerance

/-- The assignment pass of the driver loop: `labels[i] =
find_closest_centroid(row i, centroids)` for every row.  Each call's `unwrap`
panic propagates as `none`. -/
def assignLabels (arr : Mat) (centroids : List Vec) : Option (List ℕ) :=
  arr.mapM fun p => find_closest_centroid p centroids

/-- The `for _ in 0..max_iters` loop of `main`: assign labels, recompute
centroids, and if `has_converged(centroids, new_centroids, tolerance)` then
`break` — keeping the current `centroids` (the assignment
`centroids = new_centroids` is only reached when convergence fails.)  The
returned `Bool` records whether the loop exited via the convergence `break`
(`true`) or by exhausting the iteration budget (`false`). -/
def kmeansLoop (d : ℕ) (arr : Mat) (k : ℕ) (tol : ℚ) :
    ℕ → List Vec → List ℕ → Option (List Vec × List ℕ × Bool)
  | 0, centroids, labels => some (centroids, labels, false)
  | fuel + 1, centroids, _labels => do
    let labels' ← assignLabels arr centroids
    let newC ← recompute_centroids d arr labels' k
    if has_converged centroids newC tol then
      some (centroids, labels', true)
    else
      kmeansLoop d arr k tol fuel newC labels'

/-- The clustering driver of `main`: initialize centroids from the first `k`
rows, zero-initialize the labels, and run the iteration loop. -/
def kmeans (d : ℕ) (arr : Mat) (k maxIters : ℕ) (tol : ℚ) :
    Option (List Vec × List ℕ × Bool) := do
  let centroids ← (initialize_centroids arr k).toOption
  kmeansLoop d arr k tol maxIters centroids (List.replicate arr.length 0)

/-- The rows of `arr` carrying label `i` (in row order): the members of
cluster `i` under a label assignment.  Used to state what
`recompute_centroids` computes. -/
def members (rows : List Vec) (labels : List ℕ) (i : ℕ) : List Vec :=
  ((rows.zip labels).filter fun pl => pl.2 == i).map Prod.fst

/-! ### Basic facts about the distance radicand -/

theorem distSq_nonneg (p1 p2 : Vec) : 0 ≤ distSq p1 p2 := by
  apply List.sum_nonneg
  intro x hx
  obtain ⟨y, _, rfl⟩ := List.mem_map.mp hx
  positivity

/-- `sqrtLtQ` decides exactly the comparison `sqrt s < t` made by the source
(`distance(..) < tolerance`). -/
theorem sqrtLtQ_iff (s t : ℚ) : sqrtLtQ s t = true ↔ Real.sqrt (s : ℝ) < (t : ℝ) := by
  unfold sqrtLtQ
  rw [Bool.and_eq_true, decide_eq_true_iff, decide_eq_true_iff]
  constructor
  · rintro ⟨ht, hs⟩
    have ht' : (0 : ℝ) < (t : ℝ) := by exact_mod_cast ht
    rw [Real.sqrt_lt' ht']
    exact_mod_cast hs
  · intro h
    have ht' : (0 : ℝ) < (t : ℝ) := lt_of_le_of_lt (Real.sqrt_nonneg _) h
    have hs' : (s : ℝ) < (t : ℝ) ^ 2 := (Real.sqrt_lt' ht').mp h
    refine ⟨by exact_mod_cast ht', by exact_mod_cast hs'⟩

theorem distance_lt_tol_iff (p1 p2 : Vec) (t : ℚ) :
    distance p1 p2 < (t : ℝ) ↔ sqrtLtQ (distSq p1 p2) t = true := by
  rw [sqrtLtQ_iff]
  exact Iff.rfl

/-- The source compares square roots of the radicands; since the radicands are
nonnegative, comparing the radicands is the same comparison. -/
theorem distance_lt_iff (p q r s : Vec) :
    distance p q < distance r s ↔ distSq p q < distSq r s := by
  unfold distance
  rw [Real.sqrt_lt_sqrt_iff (by exact_mod_cast distSq_nonneg p q)]
  exact_mod_cast Iff.rfl

theorem distance_le_iff (p q r s : Vec) :
    distance p q ≤ distance r s ↔ distSq p q ≤ distSq r s := by
  unfold distance
  rw [Real.sqrt_le_sqrt_iff (by exact_mod_cast distSq_nonneg r s)]
  exact_mod_cast Iff.rfl

/-! ### The `min_by` scan of `find_closest_centroid` -/

/-- Loop invariant of the `min_by` fold: starting from the accumulator
`(ja, va)` and scanning the pairs `(s + t, distSq p l[t])`, the result is
either the accumulator (when the accumulator is at most every remaining
distance) or the first strictly smaller element — in particular its distance
is at most every distance and strictly below every distance occurring before
it. -/
theorem minByRun_spec (p : Vec) :
    ∀ (l : List Vec) (s ja : ℕ) (va : ℚ),
    ∃ j v,
      minByRun ((l.enumFrom s).map fun ic => (ic.1, distSq p ic.2)) (some (ja, va)) =
        some (j, v) ∧
      ((j = ja ∧ v = va ∧ ∀ t, t < l.length → va ≤ distSq p (l.getD t [])) ∨
       (∃ t, t < l.length ∧ j = s + t ∧ v = distSq p (l.getD t []) ∧ v < va ∧
         (∀ u, u < t → v < distSq p (l.getD u [])) ∧
         (∀ u, u < l.length → v ≤ distSq p (l.getD u [])))) := by
  intro l
  induction l with
  | nil =>
    intro s ja va
    exact ⟨ja, va, rfl, Or.inl ⟨rfl, rfl, fun t ht => absurd ht (by simp)⟩⟩
  | cons c rest ih =>
    intro s ja va
    show ∃ j v,
      minByRun ((s, distSq p c) :: (rest.enumFrom (s + 1)).map fun ic => (ic.1, distSq p ic.2))
        (some (ja, va)) = some (j, v) ∧ _
    rw [minByRun]
    by_cases hc : distSq p c < va
    · rw [if_pos hc]
      obtain ⟨j, v, heq, hca⟩ := ih (s + 1) s (distSq p c)
      refine ⟨j, v, heq, Or.inr ?_⟩
      rcases hca with ⟨hj, hv, hb⟩ | ⟨t, ht, hj, hv, hlt, hstrict, hall⟩
      · refine ⟨0, Nat.succ_pos _, by omega, hv, hv ▸ hc, fun u hu => absurd hu (by omega),
          fun u hu => ?_⟩
        cases u with
        | zero => exact le_of_eq hv
        | succ u' =>
          show v ≤ distSq p (rest.getD u' [])
          exact hv ▸ hb u' (Nat.lt_of_succ_lt_succ hu)
      · refine ⟨t + 1, Nat.succ_lt_succ ht, by omega, hv, lt_trans hlt hc,
          fun u hu => ?_, fun u hu => ?_⟩
        · cases u with
          | zero => exact hlt
          | succ u' =>
            show v < distSq p (rest.getD u' [])
            exact hstrict u' (by omega)
        · cases u with
          | zero => exact le_of_lt hlt
          | succ u' =>
            show v ≤ distSq p (rest.getD u' [])
            exact hall u' (Nat.lt_of_succ_lt_succ hu)
    · rw [if_neg hc]
      obtain ⟨j, v, heq, hca⟩ := ih (s + 1) ja va
      refine ⟨j, v, heq, ?_⟩
      rcases hca with ⟨hj, hv, hb⟩ | ⟨t, ht, hj, hv, hlt, hstrict, hall⟩
      · refine Or.inl ⟨hj, hv, fun t ht => ?_⟩
        cases t with
        | zero => exact not_lt.mp hc
        | succ t' =>
          show va ≤ distSq p (rest.getD t' [])
          exact hb t' (Nat.lt_of_succ_lt_succ ht)
      · refine Or.inr ⟨t + 1, Nat.succ_lt_succ ht, by omega, hv, hlt,
          fun u hu => ?_, fun u hu => ?_⟩
        · cases u with
          | zero => exact lt_of_lt_of_le hlt (not_lt.mp hc)
          | succ u' =>
            show v < distSq p (rest.getD u' [])
            exact hstrict u' (by omega)
        · cases u with
          | zero => exact le_of_lt (lt_of_lt_of_le hlt (not_lt.mp hc))
          | succ u' =>
            show v ≤ distSq p (rest.getD u' [])
            exact hall u' (Nat.lt_of_succ_lt_succ hu)

/-- `find_closest_centroid` on a non-empty centroid list returns the index of
a centroid whose distance radicand is minimal, and every earlier centroid has
a strictly larger radicand. -/
theorem find_closest_centroid_spec (p : Vec) (cs : List Vec) (h : cs ≠ []) :
    ∃ j, find_closest_centroid p cs = some j ∧ j < cs.length ∧
      (∀ i, i < cs.length → distSq p (cs.getD j []) ≤ distSq p (cs.getD i [])) ∧
      (∀ i, i < j → distSq p (cs.getD j []) < distSq p (cs.getD i [])) := by
  cases cs with
  | nil => exact absurd rfl h
  | cons c rest =>
    obtain ⟨j, v, heq, hca⟩ := minByRun_spec p rest 1 0 (distSq p c)
    have hrun : find_closest_centroid p (c :: rest) = some j := by
      show ((minByRun ((0, distSq p c) ::
        (rest.enumFrom 1).map fun ic => (ic.1, distSq p ic.2)) none).map Prod.fst) = some j
      rw [minByRun, heq]
      rfl
    rcases hca with ⟨hj, hv, hb⟩ | ⟨t, ht, hj, hv, hlt, hstrict, hall⟩
    · subst hj
      refine ⟨0, hrun, Nat.succ_pos _, fun i hi => ?_, fun i hi => absurd hi (by omega)⟩
      cases i with
      | zero => exact le_refl _
      | succ i' =>
        show distSq p c ≤ distSq p (rest.getD i' [])
        exact hb i' (Nat.lt_of_succ_lt_succ hi)
    · have hj' : j = t + 1 := by omega
      subst hj'
      refine ⟨t + 1, hrun, Nat.succ_lt_succ ht, fun i hi => ?_, fun i hi => ?_⟩
      · show distSq p (rest.getD t []) ≤ distSq p ((c :: rest).getD i [])
        rw [← hv]
        cases i with
        | zero => exact le_of_lt hlt
        | succ i' =>
          show v ≤ distSq p (rest.getD i' [])
          exact hall i' (Nat.lt_of_succ_lt_succ hi)
      · show distSq p (rest.getD t []) < distSq p ((c :: rest).getD i [])
        rw [← hv]
        cases i with
        | zero => exact hlt
        | succ i' =>
          show v < distSq p (rest.getD i' [])
          exact hstrict i' (by omega)

/-- On a non-empty centroid list, `find_closest_centroid` always returns an
index below the list length. -/
theorem find_closest_total (p : Vec) (cs : List Vec) (h : cs ≠ []) :
    ∃ j, j < cs.length ∧ find_closest_centroid p cs = some j := by
  obtain ⟨j, hj, hlt, _, _⟩ := find_closest_centroid_spec p cs h
  exact ⟨j, hlt, hj⟩

/-! ### Convergence check -/

/-- `has_converged` with centroid lists of equal length `k` holds exactly when
every per-index distance is below the tolerance. -/
theorem has_converged_iff (old_centroids new_centroids : List Vec) (tol : ℚ) (k : ℕ)
    (h1 : old_centroids.length = k) (h2 : new_centroids.length = k) :
    has_converged old_centroids new_centroids tol = true ↔
      ∀ i, i < k →
        distance (old_centroids.getD i []) (new_centroids.getD i []) < (tol : ℝ) := by
  induction old_centroids generalizing new_centroids k with
  | nil =>
    subst h1
    constructor
    · intro _ i hi
      exact absurd hi (by simp)
    · intro _
      rfl
  | cons o os ih =>
    subst h1
    cases new_centroids with
    | nil => simp at h2
    | cons n ns =>
      have h2' : ns.length = os.length := by simpa using h2
      have hstep : has_converged (o :: os) (n :: ns) tol =
          (sqrtLtQ (distSq o n) tol && has_converged os ns tol) := rfl
      rw [hstep, Bool.and_eq_true, ih ns os.length rfl h2']
      constructor
      · rintro ⟨hh, ht⟩ i hi
        cases i with
        | zero => exact (distance_lt_tol_iff o n tol).mpr hh
        | succ i' =>
          show distance (os.getD i' []) (ns.getD i' []) < (tol : ℝ)
          exact ht i' (Nat.lt_of_succ_lt_succ hi)
      · intro hall
        refine ⟨(distance_lt_tol_iff o n tol).mp (hall 0 (Nat.succ_pos _)), fun i hi => ?_⟩
        exact hall (i + 1) (Nat.succ_lt_succ hi)

/-! ### Claim theorems: assignment and convergence components -/

/-- C2: for every point and non-empty centroid list, `find_closest_centroid`
returns the index of a centroid at minimum distance to the point, and when
several centroids are exactly equidistant at the minimum the lowest index is
returned (no equidistant centroid has a smaller index). -/
theorem C2_find_closest_centroid_min_lowest (p : Vec) (cs : List Vec) (h : cs ≠ []) :
    ∃ j, find_closest_centroid p cs = some j ∧ j < cs.length ∧
      (∀ i, i < cs.length → distance p (cs.getD j []) ≤ distance p (cs.getD i [])) ∧
      (∀ i, i < cs.length → distance p (cs.getD i []) = distance p (cs.getD j []) → j ≤ i) := by
  obtain ⟨j, hj, hjl, hmin, hstrict⟩ := find_closest_centroid_spec p cs h
  refine ⟨j, hj, hjl, fun i hi => (distance_le_iff _ _ _ _).mpr (hmin i hi),
    fun i hi heq => ?_⟩
  by_contra hcon
  have hij : i < j := by omega
  have hlt := (distance_lt_iff p (cs.getD j []) p (cs.getD i [])).mpr (hstrict i hij)
  rw [heq] at hlt
  exact lt_irrefl _ hlt

/-- Witness for C2 at a concrete input. -/
theorem C2_witness :
    ([[(1 : ℚ)], [1], [0]] : List Vec) ≠ [] ∧
    (∃ j, find_closest_centroid [0] [[(1 : ℚ)], [1], [0]] = some j ∧
      j < ([[(1 : ℚ)], [1], [0]] : List Vec).length ∧
      (∀ i, i < ([[(1 : ℚ)], [1], [0]] : List Vec).length →
        distance [0] (([[(1 : ℚ)], [1], [0]] : List Vec).getD j []) ≤
          distance [0] (([[(1 : ℚ)], [1], [0]] : List Vec).getD i [])) ∧
      (∀ i, i < ([[(1 : ℚ)], [1], [0]] : List Vec).length →
        distance [0] (([[(1 : ℚ)], [1], [0]] : List Vec).getD i []) =
          distance [0] (([[(1 : ℚ)], [1], [0]] : List Vec).getD j []) → j ≤ i)) :=
  ⟨by simp, C2_find_closest_centroid_min_lowest [0] [[(1 : ℚ)], [1], [0]] (by simp)⟩

/-- C7: with centroid lists of equal size `k` and tolerance `ε > 0`,
`has_converged` returns true iff every per-index distance is strictly below
`ε`; in particular a single centroid moving by `ε` or more forces `false`. -/
theorem C7_has_converged_iff (old_centroids new_centroids : List Vec) (tol : ℚ) (k : ℕ)
    (h1 : old_centroids.length = k) (h2 : new_centroids.length = k) (htol : 0 < tol) :
    has_converged old_centroids new_centroids tol = true ↔
      ∀ i, i < k →
        distance (old_centroids.getD i []) (new_centroids.getD i []) < (tol : ℝ) :=
  has_converged_iff old_centroids new_centroids tol k h1 h2

/-- Witness for C7 at a concrete input. -/
theorem C7_witness :
    ([[(0 : ℚ)]] : List Vec).length = 1 ∧ ([[(1 : ℚ)]] : List Vec).length = 1 ∧
      (0 : ℚ) < 5 ∧
    (has_converged [[(0 : ℚ)]] [[(1 : ℚ)]] 5 = true ↔
      ∀ i, i < 1 →
        distance (([[(0 : ℚ)]] : List Vec).getD i []) (([[(1 : ℚ)]] : List Vec).getD i []) <
          ((5 : ℚ) : ℝ)) :=
  ⟨by simp, by simp, by norm_num,
    C7_has_converged_iff [[(0 : ℚ)]] [[(1 : ℚ)]] 5 1 (by simp) (by simp) (by norm_num)⟩

/-- C10: `find_closest_centroid` is partial at its interface: on an empty
centroid list the `unwrap` panics (modelled as `none`); on a non-empty
centroid list it always returns an index (in the exact-rational model the
distances are total and never NaN, so the `partial_cmp` unwrap cannot fail). -/
theorem C10_find_closest_centroid_partiality (p : Vec) :
    find_closest_centroid p [] = none ∧
    ∀ cs : List Vec, cs ≠ [] → ∃ j, j < cs.length ∧ find_closest_centroid p cs = some j :=
  ⟨rfl, fun cs h => find_closest_total p cs h⟩

/-- Witness for C10 at a concrete input. -/
theorem C10_witness :
    find_closest_centroid [0] [] = none ∧ ([[(1 : ℚ)]] : List Vec) ≠ [] ∧
    ∃ j, j < ([[(1 : ℚ)]] : List Vec).length ∧
      find_closest_centroid [0] [[(1 : ℚ)]] = some j :=
  ⟨(C10_find_closest_centroid_partiality [0]).1, by simp,
    (C10_find_closest_centroid_partiality [0]).2 [[(1 : ℚ)]] (by simp)⟩

/-! ### Centroid recomputation -/

theorem getD_set_self {α : Type} (l : List α) (i : ℕ) (a d : α) (h : i < l.length) :
    (l.set i a).getD i d = a := by
  simp [List.getElem?_set_self h]

theorem getD_set_ne {α : Type} (l : List α) (i j : ℕ) (a d : α) (h : i ≠ j) :
    (l.set i a).getD j d = l.getD j d := by
  simp [List.getElem?_set_ne h]

theorem getD_replicate {α : Type} (k i : ℕ) (a d : α) (h : i < k) :
    (List.replicate k a).getD i d = a := by
  simp [List.getElem?_replicate_of_lt h]

theorem addVec_length (a b : Vec) : (addVec a b).length = min a.length b.length :=
  List.length_zipWith _ _ _

theorem addVec_getD (a b : Vec) (j : ℕ) (ha : j < a.length) (hb : j < b.length) :
    (addVec a b).getD j 0 = a.getD j 0 + b.getD j 0 := by
  have hz : j < (addVec a b).length := by rw [addVec_length]; omega
  simp only [addVec] at hz ⊢
  rw [List.getD_eq_getElem _ _ hz, List.getD_eq_getElem _ _ ha, List.getD_eq_getElem _ _ hb]
  simp

theorem divVec_length (a : Vec) (c : ℚ) : (divVec a c).length = a.length := by
  simp [divVec]

theorem divVec_getD (a : Vec) (c : ℚ) (j : ℕ) (h : j < a.length) :
    (divVec a c).getD j 0 = a.getD j 0 / c := by
  have hz : j < (divVec a c).length := by rw [divVec_length]; omega
  rw [List.getD_eq_getElem _ _ hz, List.getD_eq_getElem _ _ h]
  simp [divVec]

theorem members_nil (labels : List ℕ) (i : ℕ) : members [] labels i = [] := by
  simp [members]

theorem members_cons (p : Vec) (ps : List Vec) (c : ℕ) (cs : List ℕ) (i : ℕ) :
    members (p :: ps) (c :: cs) i =
      if c = i then p :: members ps cs i else members ps cs i := by
  by_cases h : c = i
  · simp [members, h]
  · simp [members, h]

theorem members_mem (rows : List Vec) (labels : List ℕ) (i : ℕ) (r : Vec)
    (h : r ∈ members rows labels i) : r ∈ rows := by
  obtain ⟨pl, hmem, hfst⟩ := List.mem_map.mp h
  have hz := List.mem_of_mem_filter hmem
  obtain ⟨h1, _⟩ := List.of_mem_zip (a := pl.1) (b := pl.2) (by simpa using hz)
  exact hfst ▸ h1

/-- Coordinatewise description of the running sums accumulated by
`recompute_centroids`: folding `addVec` over vectors of length `d` adds up
each coordinate. -/
theorem foldl_addVec_spec (d : ℕ) :
    ∀ (vs : List Vec) (acc : Vec), (∀ v ∈ vs, v.length = d) → acc.length = d →
      (vs.foldl addVec acc).length = d ∧
      ∀ j, j < d → (vs.foldl addVec acc).getD j 0 =
        acc.getD j 0 + (vs.map fun r => r.getD j 0).sum := by
  intro vs
  induction vs with
  | nil =>
    intro acc _ hacc
    exact ⟨hacc, fun j _ => by simp⟩
  | cons v vs ih =>
    intro acc hv hacc
    have hvd : v.length = d := hv v (List.mem_cons_self v vs)
    have hstep : (addVec acc v).length = d := by rw [addVec_length]; omega
    obtain ⟨hl, hc⟩ := ih (addVec acc v) (fun w hw => hv w (List.mem_cons_of_mem _ hw)) hstep
    refine ⟨hl, fun j hj => ?_⟩
    rw [List.foldl_cons, hc j hj, addVec_getD acc v j (by omega) (by omega)]
    simp [add_assoc]

/-- Loop invariant of the accumulation pass: it succeeds whenever the labels
cover the rows and stay below the centroid count, the lengths of the running
lists are preserved, and cluster `i` ends with the `addVec`-fold of its
members over its starting value and its member count added to its starting
count. -/
theorem kmAccum_spec :
    ∀ (rows : List Vec) (labels : List ℕ) (sums : List Vec) (counts : List ℕ) (k : ℕ),
      sums.length = k → counts.length = k → rows.length ≤ labels.length →
      (∀ x ∈ labels, x < k) →
      ∃ sums' counts', kmAccum rows labels sums counts = some (sums', counts') ∧
        sums'.length = k ∧ counts'.length = k ∧
        ∀ i, i < k →
          sums'.getD i [] = (members rows labels i).foldl addVec (sums.getD i []) ∧
          counts'.getD i 0 = counts.getD i 0 + (members rows labels i).length := by
  intro rows
  induction rows with
  | nil =>
    intro labels sums counts k hs hc _ _
    exact ⟨sums, counts, rfl, hs, hc, fun i _ => by simp [members_nil]⟩
  | cons p ps ih =>
    intro labels sums counts k hs hc hlen hlab
    cases labels with
    | nil => simp at hlen
    | cons c cs =>
      have hck : c < k := hlab c (List.mem_cons_self c cs)
      have hguard : c < sums.length ∧ c < counts.length := by omega
      have hstep : kmAccum (p :: ps) (c :: cs) sums counts =
          kmAccum ps cs (sums.set c (addVec (sums.getD c []) p))
            (counts.set c (counts.getD c 0 + 1)) := if_pos hguard
      obtain ⟨sums', counts', heq, hs', hc', hinv⟩ :=
        ih cs (sums.set c (addVec (sums.getD c []) p)) (counts.set c (counts.getD c 0 + 1)) k
          (by simp [hs]) (by simp [hc]) (by simpa using hlen)
          (fun x hx => hlab x (List.mem_cons_of_mem _ hx))
      refine ⟨sums', counts', hstep ▸ heq, hs', hc', fun i hi => ?_⟩
      obtain ⟨hsum_i, hcnt_i⟩ := hinv i hi
      rw [members_cons]
      by_cases hci : c = i
      · subst hci
        rw [if_pos rfl]
        constructor
        · rw [hsum_i, getD_set_self _ _ _ _ (by omega), List.foldl_cons]
        · rw [hcnt_i, getD_set_self _ _ _ _ (by omega), List.length_cons]
          omega
      · rw [if_neg hci]
        constructor
        · rw [hsum_i, getD_set_ne _ _ _ _ _ hci]
        · rw [hcnt_i, getD_set_ne _ _ _ _ _ hci]

theorem zip_map_getD (a : List Vec) (b : List ℕ) (f : Vec × ℕ → Vec) (i : ℕ)
    (ha : i < a.length) (hb : i < b.length) :
    ((a.zip b).map f).getD i [] = f (a.getD i [], b.getD i 0) := by
  have hz : i < ((a.zip b).map f).length := by
    simp [List.zip_eq_zipWith]
    omega
  rw [List.getD_eq_getElem _ _ hz, List.getD_eq_getElem _ _ ha, List.getD_eq_getElem _ _ hb]
  simp [List.zip_eq_zipWith]

/-- What `recompute_centroids` returns, cluster by cluster: the zero vector of
length `d` for a memberless cluster, and the coordinatewise arithmetic mean of
the member rows otherwise. -/
theorem recompute_centroids_spec (d : ℕ) (arr : Mat) (labels : List ℕ) (k : ℕ)
    (hlen : arr.length ≤ labels.length) (hlab : ∀ x ∈ labels, x < k)
    (hrow : ∀ r ∈ arr, r.length = d) :
    ∃ cs, recompute_centroids d arr labels k = some cs ∧ cs.length = k ∧
      ∀ i, i < k →
        (members arr labels i = [] → cs.getD i [] = List.replicate d 0) ∧
        (members arr labels i ≠ [] →
          (cs.getD i []).length = d ∧
          ∀ j, j < d → (cs.getD i []).getD j 0 =
            ((members arr labels i).map fun r => r.getD j 0).sum /
              ((members arr labels i).length : ℚ)) := by
  obtain ⟨sums', counts', heq, hs', hc', hinv⟩ :=
    kmAccum_spec arr labels (List.replicate k (List.replicate d 0)) (List.replicate k 0) k
      (by simp) (by simp) hlen hlab
  refine ⟨(sums'.zip counts').map fun p => if 0 < p.2 then divVec p.1 (p.2 : ℚ) else p.1,
    ?_, ?_, fun i hi => ?_⟩
  · unfold recompute_centroids
    rw [heq]
    rfl
  · simp [List.zip_eq_zipWith]
    omega
  · obtain ⟨hsum_i, hcnt_i⟩ := hinv i hi
    rw [getD_replicate _ _ _ _ hi] at hcnt_i
    rw [getD_replicate _ _ _ _ hi] at hsum_i
    have hcs : ((sums'.zip counts').map fun p => if 0 < p.2 then divVec p.1 (p.2 : ℚ) else p.1).getD i [] =
        if 0 < counts'.getD i 0 then divVec (sums'.getD i []) ((counts'.getD i 0 : ℕ) : ℚ)
        else sums'.getD i [] :=
      zip_map_getD sums' counts' _ i (by omega) (by omega)
    constructor
    · intro hemp
      rw [hcs, hcnt_i, hemp]
      rw [if_neg (by simp)]
      rw [hsum_i, hemp]
      rfl
    · intro hne
      have hpos : 0 < (members arr labels i).length := List.length_pos.mpr hne
      have hmem_len : ∀ v ∈ members arr labels i, v.length = d :=
        fun v hv => hrow v (members_mem arr labels i v hv)
      obtain ⟨hfl, hfc⟩ := foldl_addVec_spec d (members arr labels i)
        (List.replicate d 0) hmem_len (by simp)
      rw [hcs, hcnt_i]
      rw [if_pos (by omega)]
      refine ⟨by rw [divVec_length, hsum_i, hfl], fun j hj => ?_⟩
      rw [divVec_getD _ _ _ (by rw [hsum_i, hfl]; omega), hsum_i, hfc j hj,
        getD_replicate _ _ _ _ hj]
      simp

/-- C4: for every dataset, label assignment covering it with labels in
`[0, k)`, and cluster index `i < k`: when no row is labelled `i` the
recomputed centroid `i` is the all-zero vector of length `d`, and otherwise
it is the coordinatewise arithmetic mean of the rows labelled `i`. -/
theorem C4_recompute_centroids_zero_or_mean (d : ℕ) (arr : Mat) (labels : List ℕ)
    (k i : ℕ) (hlen : labels.length = arr.length) (hlab : ∀ x ∈ labels, x < k)
    (hrow : ∀ r ∈ arr, r.length = d) (hi : i < k) :
    ∃ cs, recompute_centroids d arr labels k = some cs ∧ cs.length = k ∧
      (members arr labels i = [] → cs.getD i [] = List.replicate d 0) ∧
      (members arr labels i ≠ [] →
        (cs.getD i []).length = d ∧
        ∀ j, j < d → (cs.getD i []).getD j 0 =
          ((members arr labels i).map fun r => r.getD j 0).sum /
            ((members arr labels i).length : ℚ)) := by
  obtain ⟨cs, heq, hl, hall⟩ :=
    recompute_centroids_spec d arr labels k (by omega) hlab hrow
  exact ⟨cs, heq, hl, hall i hi⟩

/-- Witness for C4 at a concrete input (cluster 1 has no members). -/
theorem C4_witness :
    ([0, 0] : List ℕ).length = ([[(5 : ℚ)], [5]] : Mat).length ∧
    (∀ x ∈ ([0, 0] : List ℕ), x < 2) ∧
    (∀ r ∈ ([[(5 : ℚ)], [5]] : Mat), r.length = 1) ∧ 1 < 2 ∧
    ∃ cs, recompute_centroids 1 [[(5 : ℚ)], [5]] [0, 0] 2 = some cs ∧ cs.length = 2 ∧
      (members [[(5 : ℚ)], [5]] [0, 0] 1 = [] → cs.getD 1 [] = List.replicate 1 0) ∧
      (members [[(5 : ℚ)], [5]] [0, 0] 1 ≠ [] →
        (cs.getD 1 []).length = 1 ∧
        ∀ j, j < 1 → (cs.getD 1 []).getD j 0 =
          ((members [[(5 : ℚ)], [5]] [0, 0] 1).map fun r => r.getD j 0).sum /
            ((members [[(5 : ℚ)], [5]] [0, 0] 1).length : ℚ)) :=
  ⟨rfl, by intro x hx; simp at hx; omega, by intro r hr; simp at hr; subst hr; rfl,
    by omega,
    C4_recompute_centroids_zero_or_mean 1 [[(5 : ℚ)], [5]] [0, 0] 2 1 rfl
      (by intro x hx; simp at hx; omega) (by intro r hr; simp at hr; subst hr; rfl)
      (by omega)⟩

/-! ### The driver loop -/

/-- The assignment pass succeeds on a non-empty centroid list and yields one
label per row, each a valid centroid index. -/
theorem assignLabels_spec (arr : Mat) (cs : List Vec) (h : cs ≠ []) :
    ∃ ls, assignLabels arr cs = some ls ∧ ls.length = arr.length ∧
      ∀ x ∈ ls, x < cs.length := by
  unfold assignLabels
  induction arr with
  | nil => exact ⟨[], rfl, rfl, by simp⟩
  | cons p ps ih =>
    obtain ⟨ls, hls, hlen, hmem⟩ := ih
    obtain ⟨j, hjlt, hj⟩ := find_closest_total p cs h
    refine ⟨j :: ls, ?_, by simp [hlen], ?_⟩
    · rw [List.mapM_cons, hj]
      simp only [Option.some_bind, hls, Option.some_bind]
      rfl
    · intro x hx
      rcases List.mem_cons.mp hx with rfl | hx'
      · exact hjlt
      · exact hmem x hx'

/-- One unfolding of the iteration loop. -/
theorem kmeansLoop_succ (d : ℕ) (arr : Mat) (k : ℕ) (tol : ℚ) (fuel : ℕ)
    (c0 : List Vec) (l0 : List ℕ) :
    kmeansLoop d arr k tol (fuel + 1) c0 l0 =
      (assignLabels arr c0).bind fun l' =>
        (recompute_centroids d arr l' k).bind fun newC =>
          if has_converged c0 newC tol then some (c0, l', true)
          else kmeansLoop d arr k tol fuel newC l' := rfl

/-- Invariant of the iteration loop: with `k ≥ 1` centroids and rows of
length `d`, the loop always terminates with a result whose centroid list has
length `k` and whose labels are one per row, each in `[0, k)`. -/
theorem kmeansLoop_invariant (d : ℕ) (arr : Mat) (k : ℕ) (tol : ℚ)
    (hrow : ∀ r ∈ arr, r.length = d) :
    ∀ (fuel : ℕ) (c0 : List Vec) (l0 : List ℕ),
      c0.length = k → 0 < k → l0.length = arr.length → (∀ x ∈ l0, x < k) →
      ∃ c l b, kmeansLoop d arr k tol fuel c0 l0 = some (c, l, b) ∧
        c.length = k ∧ l.length = arr.length ∧ ∀ x ∈ l, x < k := by
  intro fuel
  induction fuel with
  | zero =>
    intro c0 l0 hc hk hl hm
    exact ⟨c0, l0, false, rfl, hc, hl, hm⟩
  | succ fuel ih =>
    intro c0 l0 hc hk hl hm
    have hne : c0 ≠ [] := by
      intro hnil
      rw [hnil] at hc
      simp at hc
      omega
    obtain ⟨ls, hls, hlslen, hlsmem⟩ := assignLabels_spec arr c0 hne
    have hlab' : ∀ x ∈ ls, x < k := fun x hx => hc ▸ hlsmem x hx
    obtain ⟨cs, hcs, hcslen, _⟩ :=
      recompute_centroids_spec d arr ls k (by omega) hlab' hrow
    rw [kmeansLoop_succ, hls, Option.some_bind, hcs, Option.some_bind]
    by_cases hconv : has_converged c0 cs tol
    · rw [if_pos hconv]
      exact ⟨c0, ls, true, rfl, hc, hlslen, hlab'⟩
    · rw [if_neg hconv]
      exact ih cs ls hcslen hk hlslen hlab'

/-! ### Initialization -/

theorem initMapM_ok (arr : Mat) :
    ∀ (m s : ℕ), s + m ≤ arr.length →
      ((List.range' s m).mapM fun i =>
        match arr.get? i with
        | some row => Except.ok row
        | none => Except.error InitError.rowIndexOutOfBounds) =
      Except.ok ((List.range' s m).map fun i => arr.getD i []) := by
  intro m
  induction m with
  | zero => intro s _; rfl
  | succ m ihm =>
    intro s hs
    have hslt : s < arr.length := by omega
    have hget : arr.get? s = some (arr.getD s []) := by
      rw [List.get?_eq_getElem?, List.getElem?_eq_getElem hslt,
        List.getD_eq_getElem _ _ hslt]
    rw [show List.range' s (m + 1) = s :: List.range' (s + 1) m from rfl]
    rw [List.mapM_cons, hget, ihm (s + 1) (by omega)]
    rfl

theorem initMapM_err (arr : Mat) :
    ∀ (m s : ℕ), s ≤ arr.length → arr.length < s + m →
      ((List.range' s m).mapM fun i =>
        match arr.get? i with
        | some row => Except.ok row
        | none => Except.error InitError.rowIndexOutOfBounds) =
      Except.error InitError.rowIndexOutOfBounds := by
  intro m
  induction m with
  | zero => intro s h1 h2; omega
  | succ m ihm =>
    intro s h1 h2
    rw [show List.range' s (m + 1) = s :: List.range' (s + 1) m from rfl, List.mapM_cons]
    by_cases hs : s < arr.length
    · have hget : arr.get? s = some (arr.getD s []) := by
        rw [List.get?_eq_getElem?, List.getElem?_eq_getElem hs,
          List.getD_eq_getElem _ _ hs]
      rw [hget, ihm (s + 1) (by omega) (by omega)]
      rfl
    · have hget : arr.get? s = none := by
        rw [List.get?_eq_getElem?]
        exact List.getElem?_eq_none (by omega)
      rw [hget]
      rfl

/-- With enough rows, `initialize_centroids` returns the first `k` rows. -/
theorem initialize_centroids_ok (arr : Mat) (k : ℕ) (hk : k ≤ arr.length) :
    initialize_centroids arr k =
      Except.ok ((List.range k).map fun i => arr.getD i []) := by
  unfold initialize_centroids
  rw [List.range_eq_range']
  exact initMapM_ok arr k 0 (by omega)

/-- C3 (amended): when `k` exceeds the number of rows, `initialize_centroids`
fails fast — the out-of-bounds row access panics (modelled as the
`rowIndexOutOfBounds` error) — and no partial centroid list is returned.  The
failure is not an explicit `insufficientData` error. -/
theorem C3_initialize_fails_out_of_bounds (arr : Mat) (k : ℕ) (h : arr.length < k) :
    initialize_centroids arr k = Except.error InitError.rowIndexOutOfBounds := by
  unfold initialize_centroids
  rw [List.range_eq_range']
  exact initMapM_err arr k 0 (by omega) (by omega)

/-- C3 counterexample: for `n = 3 < k = 5` the initializer fails with the
out-of-bounds row panic, not with an explicit `insufficientData` error. -/
theorem C3_counterexample :
    initialize_centroids [[(1 : ℚ)], [2], [3]] 5 =
      Except.error InitError.rowIndexOutOfBounds ∧
    initialize_centroids [[(1 : ℚ)], [2], [3]] 5 ≠
      Except.error InitError.insufficientData := by
  constructor
  · rfl
  · intro hcon
    rw [show initialize_centroids [[(1 : ℚ)], [2], [3]] 5 =
      Except.error InitError.rowIndexOutOfBounds from rfl] at hcon
    simp at hcon

/-- Witness for the amended C3 at a concrete input. -/
theorem C3_witness :
    ([[(1 : ℚ)], [2], [3]] : Mat).length < 5 ∧
    initialize_centroids [[(1 : ℚ)], [2], [3]] 5 =
      Except.error InitError.rowIndexOutOfBounds :=
  ⟨by simp, C3_initialize_fails_out_of_bounds [[(1 : ℚ)], [2], [3]] 5 (by simp)⟩

/-! ### Driver claims -/

/-- C1 (amended): when the convergence check comparing the current centroid
set with the candidate returns true, the loop `break`s before the assignment
`centroids = new_centroids`, so the driver adopts the *previous* (current)
centroid set as final, together with the labels just computed against it; the
candidate is discarded. -/
theorem C1_converged_keeps_previous (d : ℕ) (arr : Mat) (k : ℕ) (tol : ℚ)
    (fuel : ℕ) (c0 : List Vec) (l0 ls : List ℕ) (cs : List Vec)
    (hls : assignLabels arr c0 = some ls)
    (hcs : recompute_centroids d arr ls k = some cs)
    (hconv : has_converged c0 cs tol = true) :
    kmeansLoop d arr k tol (fuel + 1) c0 l0 = some (c0, ls, true) := by
  rw [kmeansLoop_succ, hls, Option.some_bind, hcs, Option.some_bind, if_pos hconv]

/-- C1 counterexample: a run that converges on its first iteration.  The
convergence check compares the current set `[[0]]` with the candidate
`[[1/2]]`; the final result keeps `[[0]]`, not the candidate. -/
theorem C1_counterexample :
    kmeans 1 [[(0 : ℚ)], [1]] 1 1 10 = some ([[0]], [0, 0], true) ∧
    assignLabels [[(0 : ℚ)], [1]] [[0]] = some [0, 0] ∧
    recompute_centroids 1 [[(0 : ℚ)], [1]] [0, 0] 1 = some [[1 / 2]] ∧
    has_converged [[(0 : ℚ)]] [[1 / 2]] 10 = true ∧
    ([[(0 : ℚ)]] : List Vec) ≠ [[1 / 2]] := by
  refine ⟨?_, ?_, ?_, ?_, ?_⟩ <;>
    norm_num [kmeans, kmeansLoop, assignLabels, recompute_centroids, kmAccum, addVec, divVec,
      initialize_centroids, has_converged, sqrtLtQ, find_closest_centroid, minByRun, distSq,
      List.enum, List.enumFrom, List.replicate, bind, List.mapM, List.mapM.loop, List.range,
      List.range.loop, Except.toOption, Except.bind, Option.bind, Option.map, pure, Except.pure]

/-- Witness for the amended C1 at a concrete input. -/
theorem C1_witness :
    assignLabels [[(0 : ℚ)], [1]] [[0]] = some [0, 0] ∧
    recompute_centroids 1 [[(0 : ℚ)], [1]] [0, 0] 1 = some [[1 / 2]] ∧
    has_converged [[(0 : ℚ)]] [[1 / 2]] 10 = true ∧
    kmeansLoop 1 [[(0 : ℚ)], [1]] 1 10 1 [[0]] [0, 0] = some ([[0]], [0, 0], true) := by
  have h1 : assignLabels [[(0 : ℚ)], [1]] [[0]] = some [0, 0] := by
    norm_num [assignLabels, find_closest_centroid, minByRun, distSq, List.enum,
      List.enumFrom, List.mapM, List.mapM.loop, Option.bind, Option.map, pure]
  have h2 : recompute_centroids 1 [[(0 : ℚ)], [1]] [0, 0] 1 = some [[1 / 2]] := by
    norm_num [recompute_centroids, kmAccum, addVec, divVec, List.replicate, bind,
      Option.bind, pure]
  have h3 : has_converged [[(0 : ℚ)]] [[1 / 2]] 10 = true := by
    norm_num [has_converged, sqrtLtQ, distSq]
  exact ⟨h1, h2, h3, C1_converged_keeps_previous 1 [[(0 : ℚ)], [1]] 1 10 0 [[0]] [0, 0]
    [0, 0] [[1 / 2]] h1 h2 h3⟩

/-- C5: whenever the loop terminates via the convergence `break`, re-running
one assignment pass on the final centroid set followed by one centroid update
produces a centroid set whose per-index distance from the final set is below
the tolerance (the final set is a fixed point up to tolerance). -/
theorem C5_converged_fixed_point (d : ℕ) (arr : Mat) (k : ℕ) (tol : ℚ)
    (hrow : ∀ r ∈ arr, r.length = d) (fuel : ℕ) (c0 : List Vec) (l0 : List ℕ)
    (hc : c0.length = k) (fc : List Vec) (fl : List ℕ)
    (hterm : kmeansLoop d arr k tol fuel c0 l0 = some (fc, fl, true)) :
    ∃ ls2 nc, assignLabels arr fc = some ls2 ∧
      recompute_centroids d arr ls2 k = some nc ∧
      ∀ i, i < k → distance (fc.getD i []) (nc.getD i []) < (tol : ℝ) := by
  induction fuel generalizing c0 l0 with
  | zero =>
    rw [show kmeansLoop d arr k tol 0 c0 l0 = some (c0, l0, false) from rfl] at hterm
    simp at hterm
  | succ fuel ih =>
    by_cases hne : c0 = []
    · subst hne
      have hk0 : k = 0 := by simpa using hc.symm
      subst hk0
      cases arr with
      | nil =>
        rw [kmeansLoop_succ] at hterm
        rw [show assignLabels [] [] = some [] from rfl, Option.some_bind,
          show recompute_centroids d [] [] 0 = some [] from rfl, Option.some_bind,
          if_pos (show has_converged [] [] tol = true from rfl)] at hterm
        have h := Option.some.inj hterm
        have h1 : ([] : List Vec) = fc := congrArg Prod.fst h
        refine ⟨[], [], ?_, rfl, fun i hi => absurd hi (by omega)⟩
        rw [← h1]
        rfl
      | cons r rs =>
        rw [kmeansLoop_succ] at hterm
        rw [show assignLabels (r :: rs) [] = none from rfl] at hterm
        exact Option.noConfusion hterm
    obtain ⟨ls, hls, hlslen, hlsmem⟩ := assignLabels_spec arr c0 hne
    have hlab' : ∀ x ∈ ls, x < k := fun x hx => hc ▸ hlsmem x hx
    obtain ⟨cs, hcs, hcslen, _⟩ :=
      recompute_centroids_spec d arr ls k (by omega) hlab' hrow
    rw [kmeansLoop_succ, hls, Option.some_bind, hcs, Option.some_bind] at hterm
    by_cases hconv : has_converged c0 cs tol
    · rw [if_pos hconv] at hterm
      have h := Option.some.inj hterm
      have h1 : c0 = fc := congrArg Prod.fst h
      have h2 : ls = fl := congrArg (fun x => x.2.1) h
      subst h1
      exact ⟨ls, cs, hls, hcs,
        (has_converged_iff c0 cs tol k hc hcslen).mp hconv⟩
    · rw [if_neg hconv] at hterm
      exact ih cs ls hcslen hterm

/-- Witness for C5 at a concrete input. -/
theorem C5_witness :
    (∀ r ∈ ([[(0 : ℚ)], [1]] : Mat), r.length = 1) ∧
    ([[(0 : ℚ)]] : List Vec).length = 1 ∧
    kmeansLoop 1 [[(0 : ℚ)], [1]] 1 10 1 [[0]] [0, 0] = some ([[0]], [0, 0], true) ∧
    ∃ ls2 nc, assignLabels [[(0 : ℚ)], [1]] [[0]] = some ls2 ∧
      recompute_centroids 1 [[(0 : ℚ)], [1]] ls2 1 = some nc ∧
      ∀ i, i < 1 →
        distance (([[(0 : ℚ)]] : List Vec).getD i []) (nc.getD i []) < ((10 : ℚ) : ℝ) := by
  have hrow : ∀ r ∈ ([[(0 : ℚ)], [1]] : Mat), r.length = 1 := by
    intro r hr
    simp at hr
    rcases hr with rfl | rfl <;> rfl
  have hterm : kmeansLoop 1 [[(0 : ℚ)], [1]] 1 10 1 [[0]] [0, 0] =
      some ([[0]], [0, 0], true) := by
    norm_num [kmeansLoop, assignLabels, recompute_centroids, kmAccum, addVec, divVec,
      has_converged, sqrtLtQ, find_closest_centroid, minByRun, distSq, List.enum,
      List.enumFrom, List.replicate, bind, List.mapM, List.mapM.loop, Option.bind,
      Option.map, pure]
  exact ⟨hrow, rfl, hterm,
    C5_converged_fixed_point 1 [[(0 : ℚ)], [1]] 1 10 hrow 1 [[0]] [0, 0] rfl
      [[0]] [0, 0] hterm⟩

/-- C6: for every valid input (`k ≥ 1`, `n ≥ k`, positive iteration budget and
tolerance, rows of length `d`), the driver terminates with a label list of
exactly one entry per row, each a cluster index in `[0, k)` — in both terminal
states. -/
theorem C6_result_labels_wellformed (d : ℕ) (arr : Mat) (k maxIters : ℕ) (tol : ℚ)
    (hk : 1 ≤ k) (hn : k ≤ arr.length) (hiter : 0 < maxIters) (htol : 0 < tol)
    (hrow : ∀ r ∈ arr, r.length = d) :
    ∃ c l conv, kmeans d arr k maxIters tol = some (c, l, conv) ∧
      l.length = arr.length ∧ ∀ x ∈ l, x < k := by
  have hkm : kmeans d arr k maxIters tol =
      kmeansLoop d arr k tol maxIters ((List.range k).map fun i => arr.getD i [])
        (List.replicate arr.length 0) := by
    unfold kmeans
    rw [initialize_centroids_ok arr k hn]
    rfl
  obtain ⟨c, l, b, hrec, _, hllen, hlmem⟩ :=
    kmeansLoop_invariant d arr k tol hrow maxIters
      ((List.range k).map fun i => arr.getD i []) (List.replicate arr.length 0)
      (by simp) (by omega) (by simp)
      (fun x hx => by rw [List.eq_of_mem_replicate hx]; omega)
  exact ⟨c, l, b, hkm ▸ hrec, hllen, hlmem⟩

/-- Witness for C6 at a concrete input. -/
theorem C6_witness :
    1 ≤ 2 ∧ 2 ≤ ([[(1 : ℚ)], [2], [10], [11]] : Mat).length ∧ (0 : ℕ) < 10 ∧
    (0 : ℚ) < 1 / 10000 ∧ (∀ r ∈ ([[(1 : ℚ)], [2], [10], [11]] : Mat), r.length = 1) ∧
    ∃ c l conv, kmeans 1 [[(1 : ℚ)], [2], [10], [11]] 2 10 (1 / 10000) =
        some (c, l, conv) ∧
      l.length = ([[(1 : ℚ)], [2], [10], [11]] : Mat).length ∧ ∀ x ∈ l, x < 2 := by
  have hrow : ∀ r ∈ ([[(1 : ℚ)], [2], [10], [11]] : Mat), r.length = 1 := by
    intro r hr
    simp at hr
    rcases hr with rfl | rfl | rfl | rfl <;> rfl
  exact ⟨by omega, by simp, by omega, by norm_num, hrow,
    C6_result_labels_wellformed 1 [[(1 : ℚ)], [2], [10], [11]] 2 10 (1 / 10000)
      (by omega) (by simp) (by omega) (by norm_num) hrow⟩

/-- C9: the clustering pipeline is a pure function of the dataset and the
parameters — two runs on identical input produce identical centroid sets,
labels and terminal state. -/
theorem C9_deterministic (d : ℕ) (arr : Mat) (k maxIters : ℕ) (tol : ℚ)
    (r1 r2 : List Vec × List ℕ × Bool)
    (h1 : kmeans d arr k maxIters tol = some r1)
    (h2 : kmeans d arr k maxIters tol = some r2) : r1 = r2 := by
  rw [h1] at h2
  exact Option.some.inj h2

set_option maxHeartbeats 2000000 in
/-- Witness for C9: a complete concrete run (the spec's example scenario:
centroids converge to `[3/2]` and `[21/2]` with labels `[0, 0, 1, 1]`),
used to instantiate determinism. -/
theorem C9_witness :
    kmeans 1 [[(1 : ℚ)], [2], [10], [11]] 2 10 (1 / 10000) =
      some ([[3 / 2], [21 / 2]], [0, 0, 1, 1], true) ∧
    (([[3 / 2], [21 / 2]], [0, 0, 1, 1], true) : List Vec × List ℕ × Bool) =
      ([[3 / 2], [21 / 2]], [0, 0, 1, 1], true) := by
  have h : kmeans 1 [[(1 : ℚ)], [2], [10], [11]] 2 10 (1 / 10000) =
      some ([[3 / 2], [21 / 2]], [0, 0, 1, 1], true) := by
    norm_num [kmeans, kmeansLoop, assignLabels, recompute_centroids, kmAccum, addVec,
      divVec, initialize_centroids, has_converged, sqrtLtQ, find_closest_centroid,
      minByRun, distSq, List.enum, List.enumFrom, List.replicate, bind, List.mapM,
      List.mapM.loop, List.range, List.range.loop, Except.toOption, Except.bind,
      Option.bind, Option.map, pure, Except.pure]
  exact ⟨h, C9_deterministic 1 [[(1 : ℚ)], [2], [10], [11]] 2 10 (1 / 10000) _ _ h h⟩

/-- C8 (amended): `distance` performs no length check.  On vectors of unequal
length the `zip` silently truncates to the common coordinates and a value is
returned; there is no assert and no failure path. -/
theorem C8_distance_silently_truncates (p q : Vec) :
    distSq p q =
      distSq (p.take (min p.length q.length)) (q.take (min p.length q.length)) ∧
    distance p q =
      distance (p.take (min p.length q.length)) (q.take (min p.length q.length)) := by
  have hz : p.zip q =
      (p.take (min p.length q.length)).zip (q.take (min p.length q.length)) := by
    rw [List.zip_eq_zipWith, List.zip_eq_zipWith]
    exact List.zipWith_eq_zipWith_take_min p q
  constructor
  · unfold distSq
    rw [hz]
  · unfold distance distSq
    rw [hz]

/-- C8 counterexample: the unequal-length pair `[0]` and `[3, 4]` reaches
`distance` and a value is silently computed — the same value as for the
truncated pair `[0]`, `[3]`, namely `3`. -/
theorem C8_counterexample :
    distSq [(0 : ℚ)] [3, 4] = 9 ∧ distSq [(0 : ℚ)] [3] = 9 ∧
    distance [(0 : ℚ)] [3, 4] = 3 := by
  have h9 : distSq [(0 : ℚ)] [3, 4] = 9 := by
    norm_num [distSq]
  refine ⟨h9, by norm_num [distSq], ?_⟩
  unfold distance
  rw [h9, show ((9 : ℚ) : ℝ) = (3 : ℝ) ^ 2 by norm_num]
  exact Real.sqrt_sq (by norm_num)

end KMeans
